import Mathlib

/-!
# Verification of the dynamics-graph-tree core

A shallow embedding of the repository's core modules:

* `algo.py` — brute-force eventual-period search over symbol strings
  (`bruteforce_search`, `is_periodic`);
* `tree.py` — real intervals with inclusive/exclusive bounds (`Interval`),
  piecewise-linear maps over disjoint interval domains (`Linear`,
  `PiecewiseLinear`), and the orbit generator (`Branch`, `Tree`).

Python floats are modelled by rationals extended with the two signed
infinities (`XR`); strings by `List Char`; raising an exception by an
`Option`/error-sum result.  Python's `sorted` (a stable ascending sort by
key) is modelled by a stable insertion sort `sortBy`.
-/

namespace DynTree

/-! ## `algo.py` -/

/-- `is_periodic(substr, rem)` from `algo.py`: true iff `substr` and `rem`
are non-empty, `rem` is at least as long as `substr`, and every character
of `rem` equals the character of `substr` at the index mod the cycle
length. -/
def is_periodic (substr rem : List Char) : Bool :=
  let k := substr.length
  let r := rem.length
  if k == 0 || r == 0 || r < k then false
  else (List.range r).all (fun i => rem.get! i == substr.get! (i % k))

/-- The inner `while end_index <= length` loop of `bruteforce_search`,
iterating over the listed values of `end_index` in order. -/
def searchEnds (s : List Char) (b : Nat) : List Nat → Option (List Char × List Char)
  | [] => none
  | e :: rest =>
    let substr := (s.drop b).take (e - b)
    if is_periodic substr (s.drop e) then some (s.take b, substr)
    else searchEnds s b rest

/-- The outer `while begin_index < length` loop of `bruteforce_search`,
iterating over the listed values of `begin_index` in order; for each it
runs the inner loop over `end_index = begin_index+1 .. length`. -/
def searchBegins (s : List Char) : List Nat → List Char × List Char
  | [] => (s, [])
  | b :: rest =>
    match searchEnds s b (List.range' (b + 1) (s.length - b)) with
    | some r => r
    | none => searchBegins s rest

/-- `bruteforce_search(string)` from `algo.py`. -/
def bruteforce_search (s : List Char) : List Char × List Char :=
  searchBegins s (List.range s.length)

/-- The split of `s` at `(b, e)` is accepted: `is_periodic(s[b:e], s[e:])`. -/
def accepts (s : List Char) (b e : Nat) : Prop :=
  is_periodic ((s.drop b).take (e - b)) (s.drop e) = true

/-! ## Extended rationals, modelling Python floats with `np.inf` -/

/-- A Python float value as used by `tree.py`: a finite real (modelled as
a rational), `+inf`, or `-inf`. -/
inductive XR where
  | ninf : XR
  | fin : ℚ → XR
  | inf : XR
deriving DecidableEq

/-- Strict order on `XR`, as Python float `<`. -/
def XR.blt : XR → XR → Bool
  | .ninf, .ninf => false
  | .ninf, _ => true
  | .fin _, .ninf => false
  | .fin a, .fin b => a < b
  | .fin _, .inf => true
  | .inf, _ => false

/-- Non-strict order on `XR`, as Python float `<=`. -/
def XR.ble : XR → XR → Bool
  | .ninf, _ => true
  | .fin _, .ninf => false
  | .fin a, .fin b => a ≤ b
  | .fin _, .inf => true
  | .inf, .inf => true
  | .inf, _ => false

/-! ## Stable sorting, modelling Python's `sorted` -/

/-- Insert `a` into `l` before the first element strictly greater than `a`
(so that, among key-ties, earlier elements stay first — Python's `sorted`
is stable). -/
def insertBy (lt : α → α → Bool) (a : α) : List α → List α
  | [] => [a]
  | b :: rest => if lt b a then b :: insertBy lt a rest else a :: b :: rest

/-- Stable insertion sort: the unique stable ascending sort, hence the
model of Python's `sorted(l, key=...)`. -/
def sortBy (lt : α → α → Bool) : List α → List α
  | [] => []
  | a :: rest => insertBy lt a (sortBy lt rest)

/-! ## `tree.py`: `Interval` -/

/-- The state of a constructed `Interval` object: `self._int = [start, stop]`,
`self._l`, `self._r`. -/
structure Interval where
  start : XR
  stop : XR
  incl_l : Bool
  incl_r : Bool
deriving DecidableEq

/-- `Interval.__init__(start, stop, incl_l, incl_r)`: the validation checks,
in source order — `start > stop` is rejected, a degenerate `start == stop`
interval without both bounds inclusive is rejected, and `np.infty` (which is
`+inf` only) marked inclusive on its side is rejected; `none` models a
raised `ValueError`. -/
def Interval.mk? (start stop : XR) (incl_l incl_r : Bool) : Option Interval :=
  if XR.blt stop start then none
  else if start == stop && !(incl_l && incl_r) then none
  else if (start == XR.inf && incl_l) || (stop == XR.inf && incl_r) then none
  else some ⟨start, stop, incl_l, incl_r⟩

/-- An interval value is valid iff the constructor accepts its four fields. -/
def Interval.valid (I : Interval) : Bool :=
  (Interval.mk? I.start I.stop I.incl_l I.incl_r).isSome

/-- `Interval.overlaps(self, other)` from `tree.py`. -/
def Interval.overlaps (self other : Interval) : Bool :=
  if XR.blt other.stop self.start || XR.blt self.stop other.start then false
  else if other.stop == self.start && !(other.incl_r && self.incl_l) then false
  else if self.stop == other.start && !(self.incl_r && other.incl_l) then false
  else true

/-- `Interval.__contains__(self, x)`: builds the degenerate interval
`Interval(x, x, incl_l=True, incl_r=True)` and tests overlap; the
constructor itself can raise (for `x = +inf`), which `none` models. -/
def Interval.contains (I : Interval) (x : XR) : Option Bool :=
  (Interval.mk? x x true true).map fun J => I.overlaps J

/-- Membership of a finite value, for which the degenerate-interval
construction in `__contains__` always succeeds. -/
def Interval.containsQ (I : Interval) (q : ℚ) : Bool :=
  I.overlaps ⟨XR.fin q, XR.fin q, true, true⟩

/-- Whether interval `I` marks the bound at point `p` inclusive on every
side of `I` whose endpoint equals `p` (for stating the shared-boundary
overlap property). -/
def inclAt (I : Interval) (p : XR) : Bool :=
  (!(I.start == p) || I.incl_l) && (!(I.stop == p) || I.incl_r)

/-! ## `tree.py`: `mutually_disjoint`, `Linear`, `PiecewiseLinear` -/

/-- The `for i in range(len - 1)` loop body of `mutually_disjoint`:
checks consecutive pairs, returning `False` at the first overlap. -/
def adjacentOk : List Interval → Bool
  | a :: b :: rest => !(Interval.overlaps a b) && adjacentOk (b :: rest)
  | _ => true

/-- `mutually_disjoint(intervals)` from `tree.py`: stable-sort by the lower
bound `x[0]`, then check only sorted-adjacent pairs. -/
def mutually_disjoint (intervals : List Interval) : Bool :=
  adjacentOk (sortBy (fun a b => XR.blt a.start b.start) intervals)

/-- The state of a `Linear` object: slope, intercept, domain. -/
structure Linear where
  slope : ℚ
  intercept : ℚ
  domain : Interval
deriving DecidableEq

/-- `Linear.__call__(self, x)`: raises (`none`) outside the domain, else
returns `slope * x + intercept`. -/
def Linear.call (f : Linear) (x : ℚ) : Option ℚ :=
  if f.domain.containsQ x then some (f.slope * x + f.intercept) else none

/-- The state of a `PiecewiseLinear` object: the pieces stable-sorted by
domain lower bound (`self._funcs`). -/
structure PiecewiseLinear where
  funcs : List Linear
deriving DecidableEq

/-- `PiecewiseLinear.__init__(funcs)`: rejects (`none`) when
`mutually_disjoint` fails on the domains; otherwise stores the pieces
sorted by `x.domain()[0]`. -/
def PiecewiseLinear.mk? (funcs : List Linear) : Option PiecewiseLinear :=
  if mutually_disjoint (funcs.map (fun f => f.domain)) then
    some ⟨sortBy (fun f g => XR.blt f.domain.start g.domain.start) funcs⟩
  else none

/-- `PiecewiseLinear.__call__(self, x)`: scan the stored pieces, return the
value of the first piece whose domain contains `x` (via `Linear.__call__`,
whose own domain re-check then passes); raise (`none`) if none contains. -/
def PiecewiseLinear.call (pl : PiecewiseLinear) (x : ℚ) : Option ℚ :=
  match pl.funcs.find? (fun f => f.domain.containsQ x) with
  | some f => f.call x
  | none => none

/-! ## `tree.py`: `Branch`, `Tree` -/

/-- The state of a `Branch` object: label, domain, order. -/
structure Branch where
  label : List Char
  domain : Interval
  order : Int
deriving DecidableEq

/-- `Branch.__contains__(self, x)`: membership in the branch's domain. -/
def Branch.containsQ (b : Branch) (q : ℚ) : Bool :=
  b.domain.containsQ q

/-- The state of a `Tree` object: the map, the branch list, and the two
sequence buffers filled by `iter`. -/
structure Tree where
  f : PiecewiseLinear
  bs : List Branch
  values : List ℚ
  itinerary : List Branch

/-- The two runtime failures of `Tree.iter`: `which_branch` finding no
branch for a value, and the piecewise map being undefined at a value. -/
inductive IterErr where
  | noBranch : ℚ → IterErr
  | undefinedPoint : ℚ → IterErr
deriving DecidableEq

/-- `Tree.which_branch(self, x)`: first branch (in construction order)
whose domain contains `x`; `none` models the raised `ValueError`. -/
def Tree.which_branch (t : Tree) (x : ℚ) : Option Branch :=
  t.bs.find? (fun b => b.containsQ x)

/-- One pass of the `for _ in range(num_it)` loop of `Tree.iter`: append
the current value, classify it (stopping with `noBranch` on failure, the
value already appended), append the branch, advance through the map
(stopping with `undefinedPoint` on failure, both appended), recurse. -/
def Tree.iterLoop (t : Tree) (s : ℚ) : Nat → Tree × Option IterErr
  | 0 => (t, none)
  | n + 1 =>
    let t1 := { t with values := t.values ++ [s] }
    match t1.which_branch s with
    | none => (t1, some (IterErr.noBranch s))
    | some b =>
      let t2 := { t1 with itinerary := t1.itinerary ++ [b] }
      match t2.f.call s with
      | none => (t2, some (IterErr.undefinedPoint s))
      | some s2 => Tree.iterLoop t2 s2 n

/-- `Tree.iter(self, start, num_it)`: reset both sequence buffers, then run
the loop; the returned pair is the tree's state afterwards together with
the raised error, if any. -/
def Tree.iter (t : Tree) (start : ℚ) (num_it : Nat) : Tree × Option IterErr :=
  Tree.iterLoop { t with values := [], itinerary := [] } start num_it

/-- The pure content of one `Tree.iter` run from value `s` for `n` steps:
the values appended, the itinerary appended, and the error raised if any.
Defined directly on the map and branch list. -/
def orbitRun (f : PiecewiseLinear) (bs : List Branch) (s : ℚ) :
    Nat → List ℚ × List Branch × Option IterErr
  | 0 => ([], [], none)
  | n + 1 =>
    match bs.find? (fun b => b.containsQ s) with
    | none => ([s], [], some (IterErr.noBranch s))
    | some b =>
      match f.call s with
      | none => ([s], [b], some (IterErr.undefinedPoint s))
      | some s2 =>
        let r := orbitRun f bs s2 n
        (s :: r.1, b :: r.2.1, r.2.2)

/-! ## Order lemmas for `XR` -/

theorem XR.blt_asymm (a b : XR) : XR.blt a b = true → XR.blt b a = false := by
  cases a <;> cases b <;> simp [XR.blt] <;> intro h <;> linarith

theorem XR.not_blt (a b : XR) : XR.blt a b = false → XR.ble b a = true := by
  cases a <;> cases b <;> simp [XR.blt, XR.ble] <;> intro h <;> linarith

theorem XR.blt_trans (a b c : XR) :
    XR.blt a b = true → XR.blt b c = true → XR.blt a c = true := by
  cases a <;> cases b <;> cases c <;> simp [XR.blt] <;> intro h1 h2 <;> linarith

theorem XR.blt_negtrans (a b c : XR) :
    XR.blt a b = false → XR.blt b c = false → XR.blt a c = false := by
  cases a <;> cases b <;> cases c <;> simp [XR.blt] <;> intro h1 h2 <;> linarith

theorem XR.blt_irrefl (a : XR) : XR.blt a a = false := by
  cases a <;> simp [XR.blt]

theorem XR.blt_conn (a b : XR) :
    XR.blt a b = false → XR.blt b a = false → a = b := by
  cases a <;> cases b <;> simp [XR.blt] <;> intro h1 h2 <;> linarith

/-! ## Lemmas about the stable sort -/

theorem insertBy_perm (lt : α → α → Bool) (a : α) (l : List α) :
    (insertBy lt a l).Perm (a :: l) := by
  induction l with
  | nil => simp [insertBy]
  | cons b rest ih =>
    simp only [insertBy]
    by_cases h : lt b a = true
    · rw [if_pos h]
      exact ((ih.cons b).trans (List.Perm.swap a b rest))
    · rw [if_neg h]

theorem sortBy_perm (lt : α → α → Bool) (l : List α) : (sortBy lt l).Perm l := by
  induction l with
  | nil => simp [sortBy]
  | cons a rest ih =>
    exact (insertBy_perm lt a (sortBy lt rest)).trans (ih.cons a)

theorem insertBy_pairwise (lt : α → α → Bool)
    (hasym : ∀ a b, lt a b = true → lt b a = false)
    (hnegtrans : ∀ a b c, lt a b = false → lt b c = false → lt a c = false)
    (a : α) (l : List α)
    (hl : l.Pairwise (fun x y => lt y x = false)) :
    (insertBy lt a l).Pairwise (fun x y => lt y x = false) := by
  induction l with
  | nil => simp [insertBy]
  | cons b rest ih =>
    rcases List.pairwise_cons.mp hl with ⟨hb, hrest⟩
    simp only [insertBy]
    by_cases h : lt b a = true
    · rw [if_pos h]
      refine List.pairwise_cons.mpr ⟨?_, ih hrest⟩
      intro x hx
      rcases List.mem_cons.mp ((insertBy_perm lt a rest).mem_iff.mp hx) with hx' | hx'
      · subst hx'
        exact hasym b x h
      · exact hb x hx'
    · rw [if_neg h]
      refine List.pairwise_cons.mpr ⟨?_, hl⟩
      intro x hx
      have h' : lt b a = false := Bool.eq_false_iff.mpr h
      rcases List.mem_cons.mp hx with hx' | hx'
      · subst hx'; exact h'
      · exact hnegtrans x b a (hb x hx') h'

theorem sortBy_pairwise (lt : α → α → Bool)
    (hasym : ∀ a b, lt a b = true → lt b a = false)
    (hnegtrans : ∀ a b c, lt a b = false → lt b c = false → lt a c = false)
    (l : List α) :
    (sortBy lt l).Pairwise (fun x y => lt y x = false) := by
  induction l with
  | nil => simp [sortBy]
  | cons a rest ih => exact insertBy_pairwise lt hasym hnegtrans a (sortBy lt rest) ih

/-! ## Lemmas about the period search -/

theorem searchEnds_none_iff (s : List Char) (b a n : Nat) :
    searchEnds s b (List.range' a n) = none ↔
      ∀ e, a ≤ e → e < a + n → ¬ accepts s b e := by
  induction n generalizing a with
  | zero =>
    simp only [List.range', searchEnds, true_iff]
    intro e h1 h2
    omega
  | succ n ih =>
    rw [List.range'_succ]
    simp only [searchEnds]
    split_ifs with hacc
    · constructor
      · intro h; cases h
      · intro hall
        exact absurd hacc (hall a (le_refl a) (by omega))
    · rw [ih (a + 1)]
      constructor
      · intro hall e h1 h2
        rcases Nat.eq_or_lt_of_le h1 with h1' | h1'
        · subst h1'; exact hacc
        · exact hall e h1' (by omega)
      · intro hall e h1 h2
        exact hall e (by omega) (by omega)

theorem searchEnds_some (s : List Char) (b a n : Nat) (r : List Char × List Char)
    (h : searchEnds s b (List.range' a n) = some r) :
    ∃ e, a ≤ e ∧ e < a + n ∧ accepts s b e ∧
      r = (s.take b, (s.drop b).take (e - b)) ∧
      ∀ e', a ≤ e' → e' < e → ¬ accepts s b e' := by
  induction n generalizing a with
  | zero => cases h
  | succ n ih =>
    rw [List.range'_succ] at h
    simp only [searchEnds] at h
    split_ifs at h with hacc
    · refine ⟨a, le_refl a, by omega, hacc, by cases h; rfl, ?_⟩
      intro e' h1 h2
      omega
    · rcases ih (a + 1) h with ⟨e, h1, h2, h3, h4, h5⟩
      refine ⟨e, by omega, by omega, h3, h4, ?_⟩
      intro e' he1 he2
      rcases Nat.eq_or_lt_of_le he1 with he1' | he1'
      · subst he1'; exact hacc
      · exact h5 e' he1' he2

theorem searchBegins_spec (s : List Char) (a n : Nat) :
    (∃ b e, a ≤ b ∧ b < a + n ∧ b < e ∧ e ≤ s.length ∧ accepts s b e ∧
      searchBegins s (List.range' a n) = (s.take b, (s.drop b).take (e - b)) ∧
      ∀ b' e', a ≤ b' → b' < a + n → b' < e' → e' ≤ s.length → accepts s b' e' →
        b < b' ∨ (b = b' ∧ e ≤ e')) ∨
    ((∀ b e, a ≤ b → b < a + n → b < e → e ≤ s.length → ¬ accepts s b e) ∧
      searchBegins s (List.range' a n) = (s, [])) := by
  induction n generalizing a with
  | zero =>
    right
    refine ⟨?_, by simp [List.range', searchBegins]⟩
    intro b e h1 h2
    omega
  | succ n ih =>
    rw [List.range'_succ]
    simp only [searchBegins]
    cases hse : searchEnds s a (List.range' (a + 1) (s.length - a)) with
    | some r =>
      left
      rcases searchEnds_some s a (a + 1) (s.length - a) r hse with ⟨e, h1, h2, h3, h4, h5⟩
      refine ⟨a, e, le_refl a, by omega, by omega, by omega, h3, by rw [h4], ?_⟩
      intro b' e' hb1 hb2 hbe hel hacc
      rcases Nat.eq_or_lt_of_le hb1 with hb1' | hb1'
      · subst hb1'
        right
        refine ⟨rfl, ?_⟩
        by_contra hlt
        exact h5 e' (by omega) (by omega) hacc
      · left; exact hb1'
    | none =>
      have hnone := (searchEnds_none_iff s a (a + 1) (s.length - a)).mp hse
      rcases ih (a + 1) with ⟨b, e, h1, h2, h3, h4, h5, h6, h7⟩ | ⟨h1, h2⟩
      · left
        refine ⟨b, e, by omega, by omega, h3, h4, h5, h6, ?_⟩
        intro b' e' hb1 hb2 hbe hel hacc
        rcases Nat.eq_or_lt_of_le hb1 with hb1' | hb1'
        · subst hb1'
          exact absurd hacc (hnone e' (by omega) (by omega))
        · exact h7 b' e' hb1' (by omega) hbe hel hacc
      · right
        refine ⟨?_, h2⟩
        intro b e hb1 hb2 hbe hel
        rcases Nat.eq_or_lt_of_le hb1 with hb1' | hb1'
        · subst hb1'
          exact hnone e (by omega) (by omega)
        · exact h1 b e hb1' (by omega) hbe hel

/-! ## Claim theorems for `algo.py` -/

/-- **C2.** `is_periodic(cycle, remainder)` returns true iff the cycle is
non-empty, the remainder is non-empty, the remainder is at least as long
as the cycle, and `remainder[i] = cycle[i mod cycleLength]` for every index
`i` of the remainder — so a remainder whose length is not an exact multiple
of the cycle length (a truncated trailing repetition) is accepted as long
as it tiles correctly. -/
theorem is_periodic_iff (substr rem : List Char) :
    is_periodic substr rem = true ↔
      substr ≠ [] ∧ rem ≠ [] ∧ substr.length ≤ rem.length ∧
      ∀ i, i < rem.length → rem.get! i = substr.get! (i % substr.length) := by
  rcases substr with _ | ⟨c, cs⟩
  · simp [is_periodic]
  rcases rem with _ | ⟨d, ds⟩
  · simp [is_periodic]
  by_cases h3 : ds.length < cs.length
  · simp only [is_periodic]
    rw [if_pos (by simpa using h3)]
    constructor
    · intro h; cases h
    · rintro ⟨-, -, hle, -⟩
      simp only [List.length_cons] at hle
      omega
  · simp only [is_periodic]
    rw [if_neg (by simpa using h3)]
    simp only [List.all_eq_true, List.mem_range, beq_iff_eq]
    constructor
    · intro h
      exact ⟨by simp, by simp, by simp; omega, h⟩
    · rintro ⟨-, -, -, h⟩
      exact h

/-- **C1.** `bruteforce_search(s)` tries `beginIndex` ascending from 0 and,
for each, `endIndex` ascending from `beginIndex + 1`, and returns
`(s[:beginIndex], s[beginIndex:endIndex])` at the first accepted split —
earliest begin index first, then shortest cycle; if no split is accepted it
returns `(s, '')`.  In particular the four documented examples hold. -/
theorem bruteforce_search_spec :
    (∀ s : List Char,
      (∃ b e, b < e ∧ e ≤ s.length ∧ accepts s b e ∧
        bruteforce_search s = (s.take b, (s.drop b).take (e - b)) ∧
        ∀ b' e', b' < e' → e' ≤ s.length → accepts s b' e' →
          b < b' ∨ (b = b' ∧ e ≤ e')) ∨
      ((∀ b e, b < e → e ≤ s.length → ¬ accepts s b e) ∧
        bruteforce_search s = (s, []))) ∧
    bruteforce_search "abcabcabc".toList = ([], "abc".toList) ∧
    bruteforce_search "xabcabcabc".toList = (['x'], "abc".toList) ∧
    bruteforce_search "abcde".toList = ("abcde".toList, []) ∧
    bruteforce_search "aaaa".toList = ([], ['a']) := by
  refine ⟨?_, by decide, by decide, by decide, by decide⟩
  intro s
  have hs := searchBegins_spec s 0 s.length
  rw [← List.range_eq_range'] at hs
  unfold bruteforce_search
  rcases hs with ⟨b, e, _, _, h3, h4, h5, h6, h7⟩ | ⟨h1, h2⟩
  · left
    exact ⟨b, e, h3, h4, h5, h6,
      fun b' e' hb he ha => h7 b' e' (Nat.zero_le b') (by omega) hb he ha⟩
  · right
    exact ⟨fun b e hb he => h1 b e (Nat.zero_le b) (by omega) hb he, h2⟩

/-- **C10.** `bruteforce_search` applied to the empty string returns
`("", "")` — empty prefix and empty cycle, without error. -/
theorem bruteforce_search_empty : bruteforce_search [] = ([], []) := rfl

/-! ## Lemmas about intervals -/

theorem XR.blt_inf_iff (x : XR) : XR.blt x XR.inf = false ↔ x = XR.inf := by
  cases x <;> simp [XR.blt]

theorem Interval.valid_iff (I : Interval) :
    I.valid = true ↔
      XR.blt I.stop I.start = false ∧
      (I.start = I.stop → I.incl_l = true ∧ I.incl_r = true) ∧
      (I.start = XR.inf → I.incl_l = false) ∧
      (I.stop = XR.inf → I.incl_r = false) := by
  unfold Interval.valid Interval.mk?
  split_ifs with h1 h2 h3 <;>
    simp_all [Bool.and_eq_true, Bool.or_eq_true, Bool.not_eq_true']
  · intro hl hr
    rcases h2.2 with h | h <;> simp_all
  · intro hil
    rcases h3 with ⟨he, hl⟩ | h
    · rw [hil he] at hl
      cases hl
    · exact h

/-- A degenerate one-point interval `[x, x]` constructs whenever
`x ≠ +inf`. -/
theorem Interval.mk_point (x : XR) (hx : x ≠ XR.inf) :
    Interval.mk? x x true true = some ⟨x, x, true, true⟩ := by
  unfold Interval.mk?
  rw [if_neg (by simp [XR.blt_irrefl]), if_neg (by simp), if_neg (by simp [hx])]

theorem Interval.overlaps_comm (I J : Interval) : I.overlaps J = J.overlaps I := by
  unfold Interval.overlaps
  cases hA : XR.blt J.stop I.start <;> cases hB : XR.blt I.stop J.start <;>
    cases hC : (J.stop == I.start && !(J.incl_r && I.incl_l)) <;>
    cases hD : (I.stop == J.start && !(I.incl_r && J.incl_l)) <;>
    simp [hA, hB, hC, hD]

theorem adjacentOk_of_pairwise (l : List Interval)
    (h : l.Pairwise (fun a b => Interval.overlaps a b = false)) :
    adjacentOk l = true := by
  induction l with
  | nil => rfl
  | cons a rest ih =>
    cases rest with
    | nil => rfl
    | cons b rest2 =>
      rcases List.pairwise_cons.mp h with ⟨ha, h2⟩
      simp [adjacentOk, ha b (by simp), ih h2]

/-! ## Claim theorems for `Interval` construction and overlap -/

/-- **C6 counterexample.** `Interval(-inf, 0, incl_l=True)` — an infinite
endpoint marked inclusive on its side — is *accepted* by the constructor,
because the code compares the endpoints only against `np.infty` (`+inf`);
the claim says such a construction fails. -/
theorem interval_mk_ninf_incl_accepted :
    Interval.mk? XR.ninf (XR.fin 0) true false =
      some ⟨XR.ninf, XR.fin 0, true, false⟩ := by decide

/-- **C6 amended.** `Interval(start, stop, incl_l, incl_r)` fails iff
`start > stop`, or `start == stop` without both bounds inclusive, or
**`+inf`** (only) appears as the `start` with `incl_l` or as the `stop` with
`incl_r`; in particular `-inf` marked inclusive is accepted, and all other
inputs construct successfully. -/
theorem interval_mk_none_iff (a b : XR) (l r : Bool) :
    Interval.mk? a b l r = none ↔
      XR.blt b a = true ∨ (a = b ∧ ¬(l = true ∧ r = true)) ∨
      (a = XR.inf ∧ l = true) ∨ (b = XR.inf ∧ r = true) := by
  unfold Interval.mk?
  split_ifs with h1 h2 h3 <;>
    simp_all [Bool.and_eq_true, Bool.or_eq_true, Bool.not_eq_true']
  left
  intro hl
  rcases h2.2 with h | h
  · rw [h] at hl
    cases hl
  · exact h

/-- **C4 counterexample.** Three valid interval domains `(0, 10]`, `[0, 0]`
and `(0, 5)`: the first and third overlap, yet `mutually_disjoint` — which
checks only sorted-adjacent pairs, and the stable sort keeps construction
order for the tied lower bounds — reports them disjoint, so
`PiecewiseLinear` construction succeeds despite two overlapping supplied
domains; the claim says construction fails whenever two domains overlap. -/
theorem piecewise_mk_overlap_accepted :
    Interval.valid ⟨XR.fin 0, XR.fin 10, false, true⟩ = true ∧
    Interval.valid ⟨XR.fin 0, XR.fin 0, true, true⟩ = true ∧
    Interval.valid ⟨XR.fin 0, XR.fin 5, false, false⟩ = true ∧
    Interval.overlaps ⟨XR.fin 0, XR.fin 10, false, true⟩
      ⟨XR.fin 0, XR.fin 5, false, false⟩ = true ∧
    PiecewiseLinear.mk? [⟨1, 0, ⟨XR.fin 0, XR.fin 10, false, true⟩⟩,
      ⟨1, 0, ⟨XR.fin 0, XR.fin 0, true, true⟩⟩,
      ⟨1, 0, ⟨XR.fin 0, XR.fin 5, false, false⟩⟩] =
      some ⟨[⟨1, 0, ⟨XR.fin 0, XR.fin 10, false, true⟩⟩,
        ⟨1, 0, ⟨XR.fin 0, XR.fin 0, true, true⟩⟩,
        ⟨1, 0, ⟨XR.fin 0, XR.fin 5, false, false⟩⟩]⟩ := by decide

/-- **C4 amended.** `PiecewiseLinear` construction *succeeds* whenever the
supplied domains are pairwise non-overlapping, and when it fails some two
of the supplied domains overlap; but the converse of the claim does not
hold — the sorted-adjacent check can accept overlapping non-adjacent
domains that share a lower bound (see the counterexample), so it does not
decide full pairwise disjointness. -/
theorem piecewise_mk_of_disjoint (funcs : List Linear) :
    ((funcs.map (fun f => f.domain)).Pairwise
        (fun a b => Interval.overlaps a b = false) →
      (PiecewiseLinear.mk? funcs).isSome = true) ∧
    (PiecewiseLinear.mk? funcs = none →
      ¬ (funcs.map (fun f => f.domain)).Pairwise
        (fun a b => Interval.overlaps a b = false)) := by
  have main : (funcs.map (fun f => f.domain)).Pairwise
      (fun a b => Interval.overlaps a b = false) →
      (PiecewiseLinear.mk? funcs).isSome = true := by
    intro h
    have hsymm : ∀ {x y : Interval},
        Interval.overlaps x y = false → Interval.overlaps y x = false := by
      intro x y hxy
      rw [Interval.overlaps_comm]
      exact hxy
    have hsorted : (sortBy (fun a b => XR.blt a.start b.start)
        (funcs.map (fun f => f.domain))).Pairwise
        (fun a b => Interval.overlaps a b = false) :=
      (List.Perm.pairwise_iff hsymm
        (sortBy_perm (fun a b => XR.blt a.start b.start)
          (funcs.map (fun f => f.domain)))).mpr h
    have hmd : mutually_disjoint (funcs.map (fun f => f.domain)) = true :=
      adjacentOk_of_pairwise _ hsorted
    unfold PiecewiseLinear.mk?
    rw [if_pos hmd]
    rfl
  refine ⟨main, ?_⟩
  intro hnone hp
  rw [hnone] at main
  exact Bool.false_ne_true (main hp)

/-- Two valid intervals with `I.stop = p = J.start` overlap exactly when
each marks its bound at `p` inclusive. -/
theorem overlaps_touch_aux (I J : Interval) (p : XR)
    (hI : I.valid = true) (hJ : J.valid = true)
    (h1 : I.stop = p) (h2 : J.start = p) :
    I.overlaps J = (inclAt I p && inclAt J p) := by
  rw [Interval.valid_iff] at hI hJ
  obtain ⟨hIo, hId, hIil, hIir⟩ := hI
  obtain ⟨hJo, hJd, hJil, hJir⟩ := hJ
  have hIop : XR.blt p I.start = false := h1 ▸ hIo
  have hJop : XR.blt J.stop p = false := h2 ▸ hJo
  have e1 : XR.blt I.stop J.start = false := by rw [h1, h2]; exact XR.blt_irrefl p
  have e2 : XR.blt J.stop I.start = false := XR.blt_negtrans J.stop p I.start hJop hIop
  unfold Interval.overlaps
  rw [e1, e2]
  rw [if_neg (by simp)]
  by_cases hc : J.stop = I.start
  · have hJsp : J.stop = p := XR.blt_conn J.stop p hJop (hc ▸ hIop)
    have hIsp : I.start = p := hc ▸ hJsp
    have hIdeg := hId (by rw [hIsp, h1])
    have hJdeg := hJd (by rw [hJsp, h2])
    simp [hc, hIdeg.1, hIdeg.2, hJdeg.1, hJdeg.2, inclAt]
  · have hc3 : I.stop = J.start := by rw [h1, h2]
    have hIncl : inclAt I p = I.incl_r := by
      unfold inclAt
      rw [h1]
      by_cases hsp : I.start = p
      · have hdeg := hId (by rw [hsp, h1])
        simp [hsp, hdeg.1, hdeg.2]
      · simp [hsp]
    have hJncl : inclAt J p = J.incl_l := by
      unfold inclAt
      rw [h2]
      by_cases hsp : J.stop = p
      · have hdeg := hJd (by rw [hsp, h2])
        simp [hsp, hdeg.1, hdeg.2]
      · simp [hsp]
    rw [hIncl, hJncl]
    rw [if_neg (by simp [hc])]
    rw [hc3]
    cases hir : I.incl_r <;> cases hjl : J.incl_l <;> simp

/-- **C5.** For validly constructed intervals whose ranges touch only at a
single shared boundary point `p` (the stop of one equals `p` equals the
start of the other), `overlaps` returns true iff the bound at `p` is marked
inclusive on both intervals; and `overlaps` returns false whenever the two
ranges do not touch at all (one interval ends strictly before the other
begins). -/
theorem overlaps_shared_boundary (I J : Interval) (p : XR)
    (hI : I.valid = true) (hJ : J.valid = true) :
    ((I.stop = p ∧ J.start = p) ∨ (J.stop = p ∧ I.start = p) →
      (I.overlaps J = true ↔ inclAt I p = true ∧ inclAt J p = true)) ∧
    (XR.blt I.stop J.start = true ∨ XR.blt J.stop I.start = true →
      I.overlaps J = false) := by
  constructor
  · rintro (⟨h1, h2⟩ | ⟨h1, h2⟩)
    · rw [overlaps_touch_aux I J p hI hJ h1 h2]
      simp [Bool.and_eq_true]
    · rw [Interval.overlaps_comm, overlaps_touch_aux J I p hJ hI h1 h2]
      simp [Bool.and_eq_true, and_comm]
  · intro h
    unfold Interval.overlaps
    rcases h with h | h
    · rw [if_pos (by simp [h])]
    · rw [if_pos (by simp [h])]

/-- Witness for C5 at `[0, 1]`, `[1, 2)`, `p = 1`: both bounds at 1 are
inclusive and the intervals overlap. -/
theorem overlaps_shared_boundary_witness :
    Interval.overlaps ⟨XR.fin 0, XR.fin 1, true, true⟩
        ⟨XR.fin 1, XR.fin 2, true, false⟩ = true ↔
      inclAt ⟨XR.fin 0, XR.fin 1, true, true⟩ (XR.fin 1) = true ∧
      inclAt ⟨XR.fin 1, XR.fin 2, true, false⟩ (XR.fin 1) = true :=
  (overlaps_shared_boundary ⟨XR.fin 0, XR.fin 1, true, true⟩
    ⟨XR.fin 1, XR.fin 2, true, false⟩ (XR.fin 1) (by decide) (by decide)).1
    (Or.inl ⟨rfl, rfl⟩)

/-- A valid interval overlaps the degenerate interval at its own start
exactly when its left bound is inclusive. -/
theorem overlaps_point_start (I : Interval)
    (hIo : XR.blt I.stop I.start = false)
    (hId : I.start = I.stop → I.incl_l = true ∧ I.incl_r = true) :
    I.overlaps ⟨I.start, I.start, true, true⟩ = I.incl_l := by
  unfold Interval.overlaps
  rw [if_neg (by simp [XR.blt_irrefl, hIo])]
  cases hl : I.incl_l
  · rw [if_pos (by simp [hl])]
  · rw [if_neg (by simp [hl])]
    by_cases hdeg : I.stop = I.start
    · have := hId hdeg.symm
      rw [if_neg (by simp [this.2])]
    · rw [if_neg (by simp [hdeg])]

/-- A valid interval overlaps the degenerate interval at its own stop
exactly when its right bound is inclusive. -/
theorem overlaps_point_stop (I : Interval)
    (hIo : XR.blt I.stop I.start = false)
    (hId : I.start = I.stop → I.incl_l = true ∧ I.incl_r = true) :
    I.overlaps ⟨I.stop, I.stop, true, true⟩ = I.incl_r := by
  unfold Interval.overlaps
  rw [if_neg (by simp [XR.blt_irrefl, hIo])]
  by_cases hdeg : I.start = I.stop
  · have := hId hdeg
    rw [if_neg (by simp [this.1]), if_neg (by simp [this.2]), this.2]
  · rw [if_neg (by simp; exact fun h => absurd h.symm hdeg)]
    cases hr : I.incl_r
    · rw [if_pos (by simp [hr])]
    · rw [if_neg (by simp [hr])]

/-- **C7.** For every validly constructed interval, `contains(start)`
returns exactly the left-inclusive flag, and, when `stop` is finite,
`contains(stop)` returns exactly the right-inclusive flag (`contains`
being overlap with the degenerate interval `[x, x]`). -/
theorem contains_boundary (I : Interval) (hI : I.valid = true) :
    I.contains I.start = some I.incl_l ∧
    (∀ q : ℚ, I.stop = XR.fin q → I.contains I.stop = some I.incl_r) := by
  rw [Interval.valid_iff] at hI
  obtain ⟨hIo, hId, hIil, hIir⟩ := hI
  constructor
  · have hne : I.start ≠ XR.inf := by
      intro h
      have hstop : I.stop = XR.inf := (XR.blt_inf_iff I.stop).mp (h ▸ hIo)
      have hdeg := hId (by rw [h, hstop])
      rw [hIil h] at hdeg
      cases hdeg.1
    rw [Interval.contains, Interval.mk_point I.start hne]
    rw [Option.map_some']
    rw [overlaps_point_start I hIo hId]
  · intro q hq
    have hne : I.stop ≠ XR.inf := by rw [hq]; intro h; cases h
    rw [Interval.contains, Interval.mk_point I.stop hne]
    rw [Option.map_some']
    rw [overlaps_point_stop I hIo hId]

/-- Witness for C7 at the interval `[0, 1)`: `contains(0)` is `incl_l = true`
and `contains(1)` is `incl_r = false`. -/
theorem contains_boundary_witness :
    Interval.contains ⟨XR.fin 0, XR.fin 1, true, false⟩ (XR.fin 0) = some true ∧
    Interval.contains ⟨XR.fin 0, XR.fin 1, true, false⟩ (XR.fin 1) = some false :=
  ⟨(contains_boundary ⟨XR.fin 0, XR.fin 1, true, false⟩ (by decide)).1,
   (contains_boundary ⟨XR.fin 0, XR.fin 1, true, false⟩ (by decide)).2 1 rfl⟩

/-- **C8.** For a successfully constructed `PiecewiseLinear` and any finite
`x`: the stored pieces are the supplied pieces, arranged in ascending order
of domain lower bound; evaluation returns `slope * x + intercept` of the
first stored piece whose domain contains `x`; and evaluation fails iff no
supplied piece's domain contains `x`. -/
theorem piecewise_call_spec (fs : List Linear) (pl : PiecewiseLinear) (x : ℚ)
    (h : PiecewiseLinear.mk? fs = some pl) :
    pl.funcs.Perm fs ∧
    pl.funcs.Pairwise (fun f g => XR.ble f.domain.start g.domain.start = true) ∧
    (pl.call x = none ↔ ∀ f ∈ fs, f.domain.containsQ x = false) ∧
    (∀ f, pl.funcs.find? (fun g => g.domain.containsQ x) = some f →
      pl.call x = some (f.slope * x + f.intercept)) := by
  have hfuncs : pl.funcs = sortBy (fun f g => XR.blt f.domain.start g.domain.start) fs := by
    unfold PiecewiseLinear.mk? at h
    split_ifs at h with hmd
    cases h
    rfl
  have hperm : pl.funcs.Perm fs := by
    rw [hfuncs]
    exact sortBy_perm _ fs
  refine ⟨hperm, ?_, ?_, ?_⟩
  · have hsorted := sortBy_pairwise (fun f g => XR.blt f.domain.start g.domain.start)
      (fun a b => XR.blt_asymm _ _) (fun a b c => XR.blt_negtrans _ _ _) fs
    rw [← hfuncs] at hsorted
    exact hsorted.imp (fun hxy => XR.not_blt _ _ hxy)
  · unfold PiecewiseLinear.call
    cases hf : pl.funcs.find? (fun f => f.domain.containsQ x) with
    | none =>
      simp only [true_iff]
      intro f hfm
      exact Bool.eq_false_iff.mpr (List.find?_eq_none.mp hf f (hperm.mem_iff.mpr hfm))
    | some f =>
      have hcont := List.find?_some hf
      show Linear.call f x = none ↔ ∀ f ∈ fs, f.domain.containsQ x = false
      constructor
      · intro hc
        unfold Linear.call at hc
        rw [if_pos hcont] at hc
        cases hc
      · intro hall
        have hmem : f ∈ fs := hperm.mem_iff.mp (List.mem_of_find?_eq_some hf)
        rw [hall f hmem] at hcont
        cases hcont
  · intro f hf
    unfold PiecewiseLinear.call
    rw [hf]
    show Linear.call f x = some (f.slope * x + f.intercept)
    unfold Linear.call
    rw [if_pos (List.find?_some hf)]

/-- Witness for C8: the two-piece map `f(x) = 2x + 1` on `[0, 1)` and
`f(x) = 3x + 5` on `[1, 2)`, evaluated at `x = 1`. -/
theorem piecewise_call_spec_witness :
    PiecewiseLinear.call ⟨[⟨2, 1, ⟨XR.fin 0, XR.fin 1, true, false⟩⟩,
      ⟨3, 5, ⟨XR.fin 1, XR.fin 2, true, false⟩⟩]⟩ 1 =
      some ((3 : ℚ) * 1 + 5) :=
  (piecewise_call_spec
    [⟨2, 1, ⟨XR.fin 0, XR.fin 1, true, false⟩⟩, ⟨3, 5, ⟨XR.fin 1, XR.fin 2, true, false⟩⟩]
    ⟨[⟨2, 1, ⟨XR.fin 0, XR.fin 1, true, false⟩⟩, ⟨3, 5, ⟨XR.fin 1, XR.fin 2, true, false⟩⟩]⟩
    1 (by decide)).2.2.2 ⟨3, 5, ⟨XR.fin 1, XR.fin 2, true, false⟩⟩ (by decide)

/-! ## Lemmas about the orbit generator -/

theorem iterLoop_eq_orbitRun (n : Nat) (t : Tree) (s : ℚ) :
    Tree.iterLoop t s n =
      ({ t with values := t.values ++ (orbitRun t.f t.bs s n).1,
                itinerary := t.itinerary ++ (orbitRun t.f t.bs s n).2.1 },
       (orbitRun t.f t.bs s n).2.2) := by
  induction n generalizing t s with
  | zero => simp [Tree.iterLoop, orbitRun]
  | succ n ih =>
    simp only [Tree.iterLoop, orbitRun, Tree.which_branch]
    cases hb : t.bs.find? (fun b => b.containsQ s) with
    | none => simp
    | some b =>
      cases hc : t.f.call s with
      | none => simp
      | some s2 =>
        simp [ih]

theorem iter_eq_orbitRun (t : Tree) (start : ℚ) (n : Nat) :
    Tree.iter t start n =
      (⟨t.f, t.bs, (orbitRun t.f t.bs start n).1, (orbitRun t.f t.bs start n).2.1⟩,
       (orbitRun t.f t.bs start n).2.2) := by
  unfold Tree.iter
  rw [iterLoop_eq_orbitRun]
  simp

/-- Shape of `orbitRun` at a step whose value no branch contains. -/
theorem orbitRun_succ_noBranch (f : PiecewiseLinear) (bs : List Branch) (s : ℚ) (n : Nat)
    (hb : bs.find? (fun b => b.containsQ s) = none) :
    orbitRun f bs s (n + 1) = ([s], [], some (IterErr.noBranch s)) := by
  simp [orbitRun, hb]

/-- Shape of `orbitRun` at a step where the map is undefined. -/
theorem orbitRun_succ_undef (f : PiecewiseLinear) (bs : List Branch) (s : ℚ) (n : Nat)
    (b : Branch) (hb : bs.find? (fun c => c.containsQ s) = some b)
    (hc : f.call s = none) :
    orbitRun f bs s (n + 1) = ([s], [b], some (IterErr.undefinedPoint s)) := by
  simp [orbitRun, hb, hc]

/-- Shape of `orbitRun` at a successful step. -/
theorem orbitRun_succ_step (f : PiecewiseLinear) (bs : List Branch) (s : ℚ) (n : Nat)
    (b : Branch) (s2 : ℚ) (hb : bs.find? (fun c => c.containsQ s) = some b)
    (hc : f.call s = some s2) :
    orbitRun f bs s (n + 1) =
      (s :: (orbitRun f bs s2 n).1, b :: (orbitRun f bs s2 n).2.1,
        (orbitRun f bs s2 n).2.2) := by
  simp [orbitRun, hb, hc]

theorem orbitRun_head (f : PiecewiseLinear) (bs : List Branch) (n : Nat) (s x : ℚ)
    (h : (orbitRun f bs s n).1.get? 0 = some x) : x = s := by
  cases n with
  | zero => cases h
  | succ n =>
    cases hb : bs.find? (fun b => b.containsQ s) with
    | none =>
      rw [orbitRun_succ_noBranch f bs s n hb] at h
      exact (Option.some.inj h).symm
    | some b =>
      cases hc : f.call s with
      | none =>
        rw [orbitRun_succ_undef f bs s n b hb hc] at h
        exact (Option.some.inj h).symm
      | some s2 =>
        rw [orbitRun_succ_step f bs s n b s2 hb hc] at h
        exact (Option.some.inj h).symm

theorem orbitRun_len_none (f : PiecewiseLinear) (bs : List Branch) (n : Nat) (s : ℚ)
    (h : (orbitRun f bs s n).2.2 = none) :
    (orbitRun f bs s n).1.length = n ∧ (orbitRun f bs s n).2.1.length = n := by
  induction n generalizing s with
  | zero => simp [orbitRun]
  | succ n ih =>
    cases hb : bs.find? (fun b => b.containsQ s) with
    | none => rw [orbitRun_succ_noBranch f bs s n hb] at h; cases h
    | some b =>
      cases hc : f.call s with
      | none => rw [orbitRun_succ_undef f bs s n b hb hc] at h; cases h
      | some s2 =>
        rw [orbitRun_succ_step f bs s n b s2 hb hc] at h ⊢
        have := ih s2 h
        simp [this.1, this.2]

theorem orbitRun_steps (f : PiecewiseLinear) (bs : List Branch) (n : Nat) (s : ℚ) :
    ∀ i x y, (orbitRun f bs s n).1.get? i = some x →
      (orbitRun f bs s n).1.get? (i + 1) = some y → f.call x = some y := by
  induction n generalizing s with
  | zero => intro i x y hx hy; cases hx
  | succ n ih =>
    intro i x y hx hy
    cases hb : bs.find? (fun b => b.containsQ s) with
    | none =>
      rw [orbitRun_succ_noBranch f bs s n hb] at hx hy
      cases i with
      | zero => simp at hy
      | succ i => simp at hx
    | some b =>
      cases hc : f.call s with
      | none =>
        rw [orbitRun_succ_undef f bs s n b hb hc] at hx hy
        cases i with
        | zero => simp at hy
        | succ i => simp at hx
      | some s2 =>
        rw [orbitRun_succ_step f bs s n b s2 hb hc] at hx hy
        cases i with
        | zero =>
          simp only [List.get?] at hx hy
          cases hx
          rw [orbitRun_head f bs n s2 y hy]
          exact hc
        | succ i =>
          simp only [List.get?] at hx hy
          exact ih s2 i x y hx hy

theorem orbitRun_itin (f : PiecewiseLinear) (bs : List Branch) (n : Nat) (s : ℚ) :
    ∀ i x b, (orbitRun f bs s n).1.get? i = some x →
      (orbitRun f bs s n).2.1.get? i = some b →
      bs.find? (fun c => c.containsQ x) = some b := by
  induction n generalizing s with
  | zero => intro i x b hx hb; cases hx
  | succ n ih =>
    intro i x b hx hib
    cases hb : bs.find? (fun c => c.containsQ s) with
    | none =>
      rw [orbitRun_succ_noBranch f bs s n hb] at hx hib
      simp at hib
    | some b0 =>
      cases hc : f.call s with
      | none =>
        rw [orbitRun_succ_undef f bs s n b0 hb hc] at hx hib
        cases i with
        | zero =>
          simp only [List.get?] at hx hib
          cases hx
          cases hib
          exact hb
        | succ i => simp at hib
      | some s2 =>
        rw [orbitRun_succ_step f bs s n b0 s2 hb hc] at hx hib
        cases i with
        | zero =>
          simp only [List.get?] at hx hib
          cases hx
          cases hib
          exact hb
        | succ i =>
          simp only [List.get?] at hx hib
          exact ih s2 i x b hx hib

theorem orbitRun_noBranch (f : PiecewiseLinear) (bs : List Branch) (n : Nat) (s x : ℚ)
    (h : (orbitRun f bs s n).2.2 = some (IterErr.noBranch x)) :
    bs.find? (fun b => b.containsQ x) = none ∧
    (orbitRun f bs s n).1.length = (orbitRun f bs s n).2.1.length + 1 ∧
    (orbitRun f bs s n).1.get? ((orbitRun f bs s n).2.1.length) = some x ∧
    (orbitRun f bs s n).1.length ≤ n := by
  induction n generalizing s with
  | zero => cases h
  | succ n ih =>
    cases hb : bs.find? (fun b => b.containsQ s) with
    | none =>
      rw [orbitRun_succ_noBranch f bs s n hb] at h ⊢
      have hx : s = x := IterErr.noBranch.inj (Option.some.inj h)
      subst hx
      exact ⟨hb, rfl, rfl, by simp⟩
    | some b =>
      cases hc : f.call s with
      | none =>
        rw [orbitRun_succ_undef f bs s n b hb hc] at h
        exact absurd (Option.some.inj h) (by simp)
      | some s2 =>
        rw [orbitRun_succ_step f bs s n b s2 hb hc] at h ⊢
        have hrec := ih s2 h
        refine ⟨hrec.1, by simp [hrec.2.1], ?_, by simp; omega⟩
        simp only [List.length_cons, List.get?]
        exact hrec.2.2.1

theorem orbitRun_undef (f : PiecewiseLinear) (bs : List Branch) (n : Nat) (s x : ℚ)
    (h : (orbitRun f bs s n).2.2 = some (IterErr.undefinedPoint x)) :
    f.call x = none ∧
    (orbitRun f bs s n).1.length = (orbitRun f bs s n).2.1.length ∧
    1 ≤ (orbitRun f bs s n).1.length ∧
    (orbitRun f bs s n).1.get? ((orbitRun f bs s n).1.length - 1) = some x ∧
    (orbitRun f bs s n).1.length ≤ n := by
  induction n generalizing s with
  | zero => cases h
  | succ n ih =>
    cases hb : bs.find? (fun b => b.containsQ s) with
    | none =>
      rw [orbitRun_succ_noBranch f bs s n hb] at h
      exact absurd (Option.some.inj h) (by simp)
    | some b =>
      cases hc : f.call s with
      | none =>
        rw [orbitRun_succ_undef f bs s n b hb hc] at h ⊢
        have hx : s = x := IterErr.undefinedPoint.inj (Option.some.inj h)
        subst hx
        exact ⟨hc, rfl, by simp, rfl, by simp⟩
      | some s2 =>
        rw [orbitRun_succ_step f bs s n b s2 hb hc] at h ⊢
        have hrec := ih s2 h
        refine ⟨hrec.1, by simp [hrec.2.1], by simp, ?_, by simp; omega⟩
        have h1 := hrec.2.2.1
        have heq : (s :: (orbitRun f bs s2 n).1).length - 1 =
            ((orbitRun f bs s2 n).1.length - 1) + 1 := by
          simp only [List.length_cons]
          omega
        rw [heq]
        simp only [List.get?]
        exact hrec.2.2.2.1

theorem orbitRun_none_total (f : PiecewiseLinear) (bs : List Branch) (n : Nat) (s : ℚ)
    (h : (orbitRun f bs s n).2.2 = none) :
    ∀ y ∈ (orbitRun f bs s n).1,
      f.call y ≠ none ∧ bs.find? (fun b => b.containsQ y) ≠ none := by
  induction n generalizing s with
  | zero => intro y hy; simp [orbitRun] at hy
  | succ n ih =>
    cases hb : bs.find? (fun b => b.containsQ s) with
    | none => rw [orbitRun_succ_noBranch f bs s n hb] at h; cases h
    | some b =>
      cases hc : f.call s with
      | none => rw [orbitRun_succ_undef f bs s n b hb hc] at h; cases h
      | some s2 =>
        rw [orbitRun_succ_step f bs s n b s2 hb hc] at h ⊢
        intro y hy
        rcases List.mem_cons.mp hy with rfl | hy
        · exact ⟨by simp [hc], by simp [hb]⟩
        · exact ih s2 h y hy

/-! ## Claim theorems for `Tree.iter` -/

/-- **C3.** `Tree.iter(start, n)` discards the sequences of any previous
call; when it completes without error it leaves `values` and `itinerary`
both of length exactly `n`, with `values[0] = start` and every reached
value classified and mapped successfully; consecutive values satisfy
`values[i+1] = f(values[i])`, and `itinerary[i]` is the branch selected
for `values[i]`, whose domain contains it; it fails with the no-branch
error if a reached value lies in no branch's domain, and propagates the
undefined-point error if the map is undefined at a reached value. -/
theorem tree_iter_spec (t : Tree) (start : ℚ) (n : Nat) :
    (∀ v0 it0, Tree.iter ⟨t.f, t.bs, v0, it0⟩ start n = Tree.iter t start n) ∧
    ((Tree.iter t start n).2 = none →
      (Tree.iter t start n).1.values.length = n ∧
      (Tree.iter t start n).1.itinerary.length = n ∧
      (0 < n → (Tree.iter t start n).1.values.get? 0 = some start) ∧
      (∀ y ∈ (Tree.iter t start n).1.values,
        t.f.call y ≠ none ∧ t.which_branch y ≠ none)) ∧
    (∀ i x y, (Tree.iter t start n).1.values.get? i = some x →
      (Tree.iter t start n).1.values.get? (i + 1) = some y →
      t.f.call x = some y) ∧
    (∀ i x b, (Tree.iter t start n).1.values.get? i = some x →
      (Tree.iter t start n).1.itinerary.get? i = some b →
      t.which_branch x = some b ∧ b.domain.containsQ x = true) ∧
    (∀ x, (Tree.iter t start n).2 = some (IterErr.noBranch x) →
      t.which_branch x = none ∧ x ∈ (Tree.iter t start n).1.values) ∧
    (∀ x, (Tree.iter t start n).2 = some (IterErr.undefinedPoint x) →
      t.f.call x = none ∧ x ∈ (Tree.iter t start n).1.values) := by
  refine ⟨?_, ?_, ?_, ?_, ?_, ?_⟩
  · intro v0 it0
    rw [iter_eq_orbitRun, iter_eq_orbitRun]
  · intro herr
    rw [iter_eq_orbitRun] at herr ⊢
    have hlen := orbitRun_len_none t.f t.bs n start herr
    refine ⟨hlen.1, hlen.2, ?_, ?_⟩
    · intro hn
      have hlt : 0 < (orbitRun t.f t.bs start n).1.length := by rw [hlen.1]; exact hn
      cases hv : (orbitRun t.f t.bs start n).1.get? 0 with
      | none =>
        rw [List.get?_eq_none] at hv
        omega
      | some v =>
        have hvs : v = start := orbitRun_head t.f t.bs n start v hv
        exact congrArg some hvs
    · exact orbitRun_none_total t.f t.bs n start herr
  · intro i x y hx hy
    rw [iter_eq_orbitRun] at hx hy
    exact orbitRun_steps t.f t.bs n start i x y hx hy
  · intro i x b hx hb
    rw [iter_eq_orbitRun] at hx hb
    have hfind := orbitRun_itin t.f t.bs n start i x b hx hb
    have hp := List.find?_some hfind
    exact ⟨hfind, hp⟩
  · intro x herr
    rw [iter_eq_orbitRun] at herr ⊢
    have hrec := orbitRun_noBranch t.f t.bs n start x herr
    exact ⟨hrec.1, List.get?_mem hrec.2.2.1⟩
  · intro x herr
    rw [iter_eq_orbitRun] at herr ⊢
    have hrec := orbitRun_undef t.f t.bs n start x herr
    exact ⟨hrec.1, List.get?_mem hrec.2.2.2.1⟩

/-- **C9.** When `Tree.iter` fails partway, the tree's sequences afterwards
hold exactly the partial data computed before the failing step: the
previous run's sequences are discarded and not restored, the recorded
values and itinerary still satisfy the step relations, at most `n` steps
were recorded, the failing value is the last recorded value, and after a
no-branch failure `values` holds exactly one more element than `itinerary`
(after an undefined-point failure, equally many) — the operation is not
atomic on error. -/
theorem tree_iter_error_state (t : Tree) (start : ℚ) (n : Nat) (e : IterErr)
    (herr : (Tree.iter t start n).2 = some e) :
    (∀ v0 it0, Tree.iter ⟨t.f, t.bs, v0, it0⟩ start n = Tree.iter t start n) ∧
    (∀ i x y, (Tree.iter t start n).1.values.get? i = some x →
      (Tree.iter t start n).1.values.get? (i + 1) = some y →
      t.f.call x = some y) ∧
    (∀ i x b, (Tree.iter t start n).1.values.get? i = some x →
      (Tree.iter t start n).1.itinerary.get? i = some b →
      t.which_branch x = some b) ∧
    (Tree.iter t start n).1.values.length ≤ n ∧
    (∀ x, e = IterErr.noBranch x →
      (Tree.iter t start n).1.values.length =
        (Tree.iter t start n).1.itinerary.length + 1 ∧
      (Tree.iter t start n).1.values.get?
        ((Tree.iter t start n).1.itinerary.length) = some x) ∧
    (∀ x, e = IterErr.undefinedPoint x →
      (Tree.iter t start n).1.values.length =
        (Tree.iter t start n).1.itinerary.length ∧
      (Tree.iter t start n).1.values.get?
        ((Tree.iter t start n).1.values.length - 1) = some x) := by
  rw [iter_eq_orbitRun] at herr
  refine ⟨?_, ?_, ?_, ?_, ?_, ?_⟩
  · intro v0 it0
    rw [iter_eq_orbitRun, iter_eq_orbitRun]
  · intro i x y hx hy
    rw [iter_eq_orbitRun] at hx hy
    exact orbitRun_steps t.f t.bs n start i x y hx hy
  · intro i x b hx hb
    rw [iter_eq_orbitRun] at hx hb
    exact orbitRun_itin t.f t.bs n start i x b hx hb
  · rw [iter_eq_orbitRun]
    cases e with
    | noBranch x =>
      have hrec := orbitRun_noBranch t.f t.bs n start x herr
      exact hrec.2.2.2
    | undefinedPoint x =>
      have hrec := orbitRun_undef t.f t.bs n start x herr
      exact hrec.2.2.2.2
  · intro x hx
    subst hx
    rw [iter_eq_orbitRun]
    have hrec := orbitRun_noBranch t.f t.bs n start x herr
    exact ⟨hrec.2.1, hrec.2.2.1⟩
  · intro x hx
    subst hx
    rw [iter_eq_orbitRun]
    have hrec := orbitRun_undef t.f t.bs n start x herr
    exact ⟨hrec.2.1, hrec.2.2.2.1⟩

/-- Witness for C9: the map `x + 10` on `[0, 10)` with single branch
`[0, 10)`, started at 20 for 1 step, fails with `noBranch 20` at once and
leaves `values = [20]` with an empty itinerary. -/
theorem tree_iter_error_state_witness :
    (Tree.iter ⟨⟨[⟨1, 10, ⟨XR.fin 0, XR.fin 10, true, false⟩⟩]⟩,
        [⟨['a'], ⟨XR.fin 0, XR.fin 10, true, false⟩, 0⟩], [], []⟩ 20 1).1.values.length =
      (Tree.iter ⟨⟨[⟨1, 10, ⟨XR.fin 0, XR.fin 10, true, false⟩⟩]⟩,
        [⟨['a'], ⟨XR.fin 0, XR.fin 10, true, false⟩, 0⟩], [], []⟩ 20 1).1.itinerary.length + 1 :=
  ((tree_iter_error_state
    ⟨⟨[⟨1, 10, ⟨XR.fin 0, XR.fin 10, true, false⟩⟩]⟩,
      [⟨['a'], ⟨XR.fin 0, XR.fin 10, true, false⟩, 0⟩], [], []⟩ 20 1
    (IterErr.noBranch 20) (by decide)).2.2.2.2.1 20 rfl).1

end DynTree
